import Mathlib

/-!
Verification of the lakefs-local synchronization engine
(`crates/lakefs-local/src/{error,index,changes,sync}.rs`) against its design
document, via a shallow embedding.

Modelling conventions:
* `HashMap<String, _>` is modelled as an association list `List (String × _)`;
  `HashMap::remove` removes all pairs with the key (identical behaviour when
  keys are distinct, which the real map guarantees).
* `DateTime<Utc>` values are modelled as `Int` (only their total order is used).
* Filesystem and network effects are modelled explicitly: the change detector
  receives the list of regular files the `WalkDir` traversal enumerates (after
  the dotfile and gitignore filters) together with a `Path::exists` oracle;
  `LocalIndex::save` is modelled as the list of filesystem operations it
  issues; the sync orchestrator's remote calls (`get_branch`, `list_objects`)
  and per-change transfer (`process_change`) are oracle inputs.
-/

namespace LakeFSLocal

/-- Error enum from `lakefs-local/src/error.rs` (payloads reduced to the
message strings the code formats). -/
inductive Error where
  | Io (msg : String)
  | Api (msg : String)
  | Index (msg : String)
  | Sync (msg : String)
  | InvalidPath (msg : String)
deriving DecidableEq, Repr

/-- `PathType` from `lakefs-api/src/models.rs`. -/
inductive PathType where
  | Object
  | Directory
deriving DecidableEq, Repr

/-- `ObjectStats` from `lakefs-api/src/models.rs`; `mtime` as integer
timestamp. -/
structure ObjectStats where
  path : String
  path_type : PathType
  physical_address : String
  checksum : String
  size_bytes : Int
  mtime : Int
  metadata : Option (List (String × String))
deriving DecidableEq, Repr

/-- `IndexEntry` from `lakefs-local/src/index.rs`. -/
structure IndexEntry where
  path : String
  checksum : String
  size : Nat
  mtime : Int
  permissions : Option Nat
deriving DecidableEq, Repr

/-- `LocalIndex` from `lakefs-local/src/index.rs`; the `entries` hash map is
an association list. -/
structure LocalIndex where
  version : Nat
  repository : String
  reference : String
  head_commit : String
  entries : List (String × IndexEntry)
  last_sync : Int
deriving DecidableEq, Repr

/-- Decidable equality for `Except`, used to evaluate witnesses. -/
instance {ε α : Type} [DecidableEq ε] [DecidableEq α] : DecidableEq (Except ε α) := fun a b =>
  match a, b with
  | .ok a, .ok b => if h : a = b then .isTrue (by rw [h]) else .isFalse (by simp [h])
  | .error a, .error b => if h : a = b then .isTrue (by rw [h]) else .isFalse (by simp [h])
  | .ok _, .error _ => .isFalse (by simp)
  | .error _, .ok _ => .isFalse (by simp)

/-- `HashMap::get`, modelled on the association list. -/
def alLookup {α : Type} (k : String) : List (String × α) → Option α
  | [] => none
  | (k', v) :: rest => if k' = k then some v else alLookup k rest

/-- `HashMap::remove` (discarding the returned value): drop every pair whose
key is `k`. -/
def alErase {α : Type} (k : String) : List (String × α) → List (String × α)
  | [] => []
  | (k', v) :: rest => if k' = k then alErase k rest else (k', v) :: alErase k rest

/-- `HashMap::insert`: replace the binding for `k` in place, or append one. -/
def alInsert {α : Type} (k : String) (v : α) : List (String × α) → List (String × α)
  | [] => [(k, v)]
  | (k', v') :: rest => if k' = k then (k, v) :: rest else (k', v') :: alInsert k v rest

/-- `LocalIndex::VERSION`. -/
def LocalIndex.VERSION : Nat := 1

/-- `LocalIndex::INDEX_FILE`. -/
def INDEX_FILE : String := ".lakectl/index.json"

/-- `LocalIndex::new`; `now` stands for `Utc::now()`. -/
def LocalIndex.new (repository reference head_commit : String) (now : Int) : LocalIndex :=
  { version := LocalIndex.VERSION
    repository := repository
    reference := reference
    head_commit := head_commit
    entries := []
    last_sync := now }

/-- `LocalIndex::get_entry`. -/
def LocalIndex.get_entry (idx : LocalIndex) (path : String) : Option IndexEntry :=
  alLookup path idx.entries

/-- `LocalIndex::add_entry`. -/
def LocalIndex.add_entry (idx : LocalIndex) (path : String) (entry : IndexEntry) : LocalIndex :=
  { idx with entries := alInsert path entry idx.entries }

/-- `LocalIndex::remove_entry` (the returned old value is unused by `sync`). -/
def LocalIndex.remove_entry (idx : LocalIndex) (path : String) : LocalIndex :=
  { idx with entries := alErase path idx.entries }

/-- `LocalIndex::update_head`; `now` stands for `Utc::now()`. -/
def LocalIndex.update_head (idx : LocalIndex) (commit_id : String) (now : Int) : LocalIndex :=
  { idx with head_commit := commit_id, last_sync := now }

/-- State of the stored snapshot file as `LocalIndex::load` observes it:
`missing` models `fs::read_to_string` failing (with its io error message),
`unparsable` models `serde_json::from_str` failing (with its parse error
message), `parsed` models a successfully parsed index value. -/
inductive StoredIndexFile where
  | missing (ioMsg : String)
  | unparsable (parseMsg : String)
  | parsed (idx : LocalIndex)
deriving Repr

/-- `LocalIndex::load`, following the source's three-stage control flow:
read, parse, then the version gate. -/
def LocalIndex.load (file : StoredIndexFile) : Except Error LocalIndex :=
  match file with
  | .missing m => .error (.Index ("Failed to read index: " ++ m))
  | .unparsable m => .error (.Index ("Failed to parse index: " ++ m))
  | .parsed idx =>
    if idx.version ≠ LocalIndex.VERSION then
      .error (.Index ("Unsupported index version: " ++ toString idx.version))
    else
      .ok idx

/-- One filesystem operation issued by the index store. -/
inductive FsOp where
  | createDirAll (path : String)
  | write (path : String) (data : String)
  | rename (src dst : String)
deriving DecidableEq, Repr

/-- Recognizer for rename operations. -/
def FsOp.isRename : FsOp → Bool
  | .rename _ _ => true
  | _ => false

/-- Rendering of one entry for `serde_json::to_string_pretty` (the exact byte
layout is immaterial to every claim; only which path receives which
serialized index matters). -/
def serializeEntry (e : IndexEntry) : String :=
  "\x7b\"path\":\"" ++ e.path ++ "\",\"checksum\":\"" ++ e.checksum ++
    "\",\"size\":" ++ toString e.size ++ ",\"mtime\":" ++ toString e.mtime ++ "\x7d"

/-- Rendering of the entries map. -/
def serializeEntries : List (String × IndexEntry) → String
  | [] => ""
  | (k, e) :: rest => "\"" ++ k ++ "\":" ++ serializeEntry e ++ "," ++ serializeEntries rest

/-- Rendering of a whole index, standing in for `serde_json::to_string_pretty`
(which cannot fail on this type). -/
def serializeIndex (idx : LocalIndex) : String :=
  "\x7b\"version\":" ++ toString idx.version ++
    ",\"repository\":\"" ++ idx.repository ++
    "\",\"reference\":\"" ++ idx.reference ++
    "\",\"head_commit\":\"" ++ idx.head_commit ++
    "\",\"entries\":\x7b" ++ serializeEntries idx.entries ++
    "\x7d,\"last_sync\":" ++ toString idx.last_sync ++ "\x7d"

/-- `LocalIndex::save`, as the list of filesystem operations it issues:
`create_dir_all` on the parent of the index file, then a single `fs::write`
of the serialized index directly to the target path. -/
def LocalIndex.save (idx : LocalIndex) (root : String) : List FsOp :=
  [ .createDirAll (root ++ "/.lakectl"),
    .write (root ++ "/" ++ INDEX_FILE) (serializeIndex idx) ]

/-- `ChangeType` from `lakefs-local/src/changes.rs`. -/
inductive ChangeType where
  | Added
  | Modified
  | Removed
deriving DecidableEq, Repr

/-- `Change` from `lakefs-local/src/changes.rs`. `local_path` carries the
file's path relative to the root when present (the source stores the absolute
path; only its presence and identity matter). -/
structure Change where
  path : String
  change_type : ChangeType
  local_path : Option String
  remote_stats : Option ObjectStats
deriving DecidableEq, Repr

/-- One regular file as the `WalkDir` loop in `detect_changes` observes it,
after the dotfile / gitignore `filter_entry` and the `is_file` test:
`relPath` is the path `get_relative_path` would produce, `size` and `mtime`
come from `fs::metadata`, `checksum` is the SHA-256 hex digest
`calculate_checksum` would compute, and `escapesRoot` models a walked path
that `strip_prefix` cannot relate back to the root. -/
structure LocalFile where
  relPath : String
  size : Nat
  mtime : Int
  checksum : String
  escapesRoot : Bool
deriving DecidableEq, Repr

/-- The local tree as the change detector observes it: the filtered
enumeration of regular files, plus the `Path::exists` oracle used by the
removed-path scan (a path can exist on disk — e.g. a dotfile, an ignored
file, or a directory — without appearing in `files`). -/
structure LocalTree where
  files : List LocalFile
  existsPath : String → Bool

/-- The remote map built in `detect_changes` from the listing
(`HashMap<String, ObjectStats>` keyed by object path). -/
abbrev RMap := List (String × ObjectStats)

/-- Construction of the remote map: insert the listing's objects in order
(`.map(|obj| (obj.path, obj)).collect()`), later duplicates overwriting. -/
def buildRemoteMapAux (m : RMap) : List ObjectStats → RMap
  | [] => m
  | obj :: rest => buildRemoteMapAux (alInsert obj.path obj m) rest

/-- The remote map built from a listing, starting empty. -/
def buildRemoteMap (objs : List ObjectStats) : RMap :=
  buildRemoteMapAux [] objs

/-- `ChangeDetector::get_relative_path`. -/
def get_relative_path (f : LocalFile) : Except Error String :=
  if f.escapesRoot then
    .error (.InvalidPath ("Path not within local directory: " ++ f.relPath))
  else
    .ok f.relPath

/-- `ChangeDetector::has_changed`. The first component is the returned
boolean; the second records whether the checksum fallback was actually
computed (the source only reads the file and hashes it inside the
mtime-newer branch). -/
def has_changed (f : LocalFile) (e : IndexEntry) : Bool × Bool :=
  if f.size ≠ e.size then (true, false)
  else if e.mtime < f.mtime then (decide (f.checksum ≠ e.checksum), true)
  else (false, false)

/-- Step 1 of `ChangeDetector::detect_changes`: the `WalkDir` loop over the
enumerated local files, threading the remote map. A push pairs the change
with `remote_map.remove(&relative_path)` (modelled as lookup plus erase);
a file that yields no change leaves the map untouched. -/
def detectLocal (index : LocalIndex) : List LocalFile → RMap → Except Error (List Change × RMap)
  | [], m => .ok ([], m)
  | f :: fs, m =>
    match get_relative_path f with
    | .error e => .error e
    | .ok rel =>
      match index.get_entry rel with
      | some e =>
        if (has_changed f e).1 then
          match detectLocal index fs (alErase rel m) with
          | .error err => .error err
          | .ok (cs, m') =>
            .ok (⟨rel, .Modified, some rel, alLookup rel m⟩ :: cs, m')
        else
          detectLocal index fs m
      | none =>
        match detectLocal index fs (alErase rel m) with
        | .error err => .error err
        | .ok (cs, m') =>
          .ok (⟨rel, .Added, some rel, alLookup rel m⟩ :: cs, m')

/-- Step 2 of `ChangeDetector::detect_changes`: the scan over `index.entries`
emitting `Removed` for every tracked path whose joined local path does not
exist (`!local_path.exists()`), consuming the matching remote entry. -/
def detectRemoved (existsPath : String → Bool) :
    List (String × IndexEntry) → RMap → List Change × RMap
  | [], m => ([], m)
  | (path, _) :: rest, m =>
    if existsPath path then
      detectRemoved existsPath rest m
    else
      let res := detectRemoved existsPath rest (alErase path m)
      (⟨path, .Removed, none, alLookup path m⟩ :: res.1, res.2)

/-- Step 3 of `ChangeDetector::detect_changes`: the loop over the remaining
remote map. -/
def detectRemote (index : LocalIndex) : RMap → List Change
  | [] => []
  | (path, stats) :: rest =>
    match index.get_entry path with
    | some e =>
      if stats.checksum ≠ e.checksum then
        ⟨path, .Modified, none, some stats⟩ :: detectRemote index rest
      else
        detectRemote index rest
    | none =>
      ⟨path, .Added, none, some stats⟩ :: detectRemote index rest

/-- `ChangeDetector::detect_changes`: build the remote map, run the local
walk, the removed-path scan, then the remote scan, concatenating the three
change lists in order. -/
def detect_changes (tree : LocalTree) (index : LocalIndex) (remote_objects : List ObjectStats) :
    Except Error (List Change) :=
  match detectLocal index tree.files (buildRemoteMap remote_objects) with
  | .error e => .error e
  | .ok (c1, m1) =>
    let res2 := detectRemoved tree.existsPath index.entries m1
    .ok (c1 ++ res2.1 ++ detectRemote index res2.2)

/-- `SyncResult` from `lakefs-local/src/sync.rs`. -/
structure SyncResult where
  uploaded : Nat
  downloaded : Nat
  removed : Nat
  errors : List (String × Error)
deriving DecidableEq, Repr

/-- Environment of one `SyncManager::sync` call: everything the pass
observes from the outside world. `storedIndex` is what `LocalIndex::load`
reads; `branchCommit` / `branchCommit2` are the two `get_branch` calls'
outcomes (commit id on success); `listRes` is `list_remote_objects`;
`transfer` is the outcome of `process_change` for a given change (its
network and file I/O abstracted to the produced `IndexEntry` or error);
`now` stands for `Utc::now()`. -/
structure SyncEnv where
  root : String
  repository : String
  reference : String
  tree : LocalTree
  storedIndex : StoredIndexFile
  branchCommit : Except Error String
  branchCommit2 : Except Error String
  listRes : Except Error (List ObjectStats)
  transfer : Change → Except Error IndexEntry
  now : Int

/-- Lines 44–52 of `sync.rs`: load the index, and on any load error resolve
the branch and synthesize a fresh empty index (`Err(_) =>` is a catch-all). -/
def loadOrCreate (loadRes : Except Error LocalIndex) (branchRes : Except Error String)
    (repository reference : String) (now : Int) : Except Error LocalIndex :=
  match loadRes with
  | .ok idx => .ok idx
  | .error _ =>
    match branchRes with
    | .error e => .error e
    | .ok commit => .ok (LocalIndex.new repository reference commit now)

/-- Lines 100–130 of `sync.rs`: the collect loop over the (change, transfer
result) pairs in spawn order, merging successes into the index and
collecting failures as (path, error) pairs. -/
def mergeResults : LocalIndex → List (Change × Except Error IndexEntry) → LocalIndex × SyncResult
  | index, [] => (index, ⟨0, 0, 0, []⟩)
  | index, (change, .ok entry) :: rest =>
    match change.change_type with
    | .Added | .Modified =>
      let res := mergeResults (index.add_entry change.path entry) rest
      if change.local_path.isSome then
        (res.1, { res.2 with uploaded := res.2.uploaded + 1 })
      else
        (res.1, { res.2 with downloaded := res.2.downloaded + 1 })
    | .Removed =>
      let res := mergeResults (index.remove_entry change.path) rest
      (res.1, { res.2 with removed := res.2.removed + 1 })
  | index, (change, .error e) :: rest =>
    let res := mergeResults index rest
    (res.1, { res.2 with errors := (change.path, e) :: res.2.errors })

/-- `SyncManager::sync`: load-or-create the index, fetch the remote listing,
detect changes, execute every change (transfer outcomes given by the
`transfer` oracle), merge the results, re-resolve the head commit, stamp and
save the index. The second component is the list of filesystem operations
written to the on-disk index store: empty on every abort path, the `save`
trace on success. -/
def sync (env : SyncEnv) : Except Error SyncResult × List FsOp :=
  match loadOrCreate (LocalIndex.load env.storedIndex) env.branchCommit
      env.repository env.reference env.now with
  | .error e => (.error e, [])
  | .ok index =>
    match env.listRes with
    | .error e => (.error e, [])
    | .ok remote_objects =>
      match detect_changes env.tree index remote_objects with
      | .error e => (.error e, [])
      | .ok changes =>
        let results := changes.map (fun c => (c, env.transfer c))
        let merged := mergeResults index results
        match env.branchCommit2 with
        | .error e => (.error e, [])
        | .ok commit =>
          (.ok merged.2, (merged.1.update_head commit env.now).save env.root)

/-! Association-list lemmas. -/

theorem alLookup_eq_none_iff {α : Type} (k : String) (m : List (String × α)) :
    alLookup k m = none ↔ k ∉ m.map Prod.fst := by
  induction m with
  | nil => simp [alLookup]
  | cons kv rest ih =>
    obtain ⟨k', v⟩ := kv
    by_cases h : k' = k
    · subst h; simp [alLookup]
    · simp [alLookup, h, ih, Ne.symm h]

theorem mem_of_alLookup_eq_some {α : Type} {k : String} {v : α}
    {m : List (String × α)} (h : alLookup k m = some v) : (k, v) ∈ m := by
  induction m with
  | nil => simp [alLookup] at h
  | cons kv rest ih =>
    obtain ⟨k', v'⟩ := kv
    by_cases hk : k' = k
    · subst hk
      simp [alLookup] at h
      simp [h]
    · simp [alLookup, hk] at h
      exact List.mem_cons_of_mem _ (ih h)

theorem alLookup_of_mem_nodup {α : Type} {k : String} {v : α}
    {m : List (String × α)} (h : (k, v) ∈ m) (hnd : (m.map Prod.fst).Nodup) :
    alLookup k m = some v := by
  induction m with
  | nil => simp at h
  | cons kv rest ih =>
    obtain ⟨k', v'⟩ := kv
    simp only [List.map_cons, List.nodup_cons] at hnd
    rcases List.mem_cons.mp h with h1 | h1
    · rw [Prod.ext_iff] at h1
      obtain ⟨hk, hv⟩ := h1
      subst hk
      subst hv
      simp [alLookup]
    · by_cases hk : k' = k
      · exfalso
        subst hk
        exact hnd.1 (List.mem_map.mpr ⟨(k', v), h1, rfl⟩)
      · simpa [alLookup, hk] using ih h1 hnd.2

theorem alErase_sublist {α : Type} (k : String) (m : List (String × α)) :
    List.Sublist (alErase k m) m := by
  induction m with
  | nil => simp [alErase]
  | cons kv rest ih =>
    obtain ⟨k', v⟩ := kv
    by_cases hk : k' = k
    · simp only [alErase, if_pos hk]
      exact ih.cons _
    · simp only [alErase, if_neg hk]
      exact List.Sublist.cons₂ _ ih

theorem alLookup_alErase_self {α : Type} (k : String) (m : List (String × α)) :
    alLookup k (alErase k m) = none := by
  induction m with
  | nil => rfl
  | cons kv rest ih =>
    obtain ⟨k', v⟩ := kv
    by_cases hk : k' = k
    · simpa [alErase, hk] using ih
    · simp [alErase, alLookup, hk, ih]

theorem alLookup_none_of_sublist {α : Type} {m m' : List (String × α)}
    (hsub : List.Sublist m' m) {k : String} (hk : alLookup k m = none) :
    alLookup k m' = none := by
  rw [alLookup_eq_none_iff] at hk ⊢
  intro hmem
  exact hk ((hsub.map Prod.fst).mem hmem)

theorem alInsert_map_fst {α : Type} (k : String) (v : α) (m : List (String × α)) :
    (alInsert k v m).map Prod.fst =
      if k ∈ m.map Prod.fst then m.map Prod.fst else m.map Prod.fst ++ [k] := by
  induction m with
  | nil => simp [alInsert]
  | cons kv rest ih =>
    obtain ⟨k', v'⟩ := kv
    by_cases hk : k' = k
    · subst hk; simp [alInsert]
    · simp only [alInsert, if_neg hk, List.map_cons, ih]
      by_cases hmem : k ∈ rest.map Prod.fst
      · simp [hmem, Ne.symm hk]
      · simp [hmem, Ne.symm hk]

theorem alInsert_keys_nodup {α : Type} {k : String} {v : α} {m : List (String × α)}
    (hnd : (m.map Prod.fst).Nodup) : ((alInsert k v m).map Prod.fst).Nodup := by
  rw [alInsert_map_fst]
  by_cases hmem : k ∈ m.map Prod.fst
  · simpa [hmem]
  · have hdisj : (m.map Prod.fst).Disjoint [k] := by
      intro a ha hak
      rw [List.mem_singleton] at hak
      subst hak
      exact hmem ha
    simpa [hmem] using List.Nodup.append hnd (List.nodup_singleton k) hdisj

theorem buildRemoteMapAux_keys_nodup {m : RMap} (hnd : (m.map Prod.fst).Nodup) :
    ∀ objs : List ObjectStats, ((buildRemoteMapAux m objs).map Prod.fst).Nodup := by
  intro objs
  induction objs generalizing m with
  | nil => simpa [buildRemoteMapAux]
  | cons obj rest ih =>
    exact ih (alInsert_keys_nodup hnd)

theorem buildRemoteMap_keys_nodup (objs : List ObjectStats) :
    ((buildRemoteMap objs).map Prod.fst).Nodup :=
  buildRemoteMapAux_keys_nodup (by simp) objs

/-! Structural lemmas about the three phases of `detect_changes`. -/

theorem detectLocal_spec {index : LocalIndex} :
    ∀ {files : List LocalFile} {m m' : RMap} {cs : List Change},
      detectLocal index files m = .ok (cs, m') →
      List.Sublist m' m ∧
      List.Sublist (cs.map Change.path) (files.map LocalFile.relPath) ∧
      ∀ c ∈ cs, c.local_path = some c.path ∧ alLookup c.path m' = none := by
  intro files
  induction files with
  | nil =>
    intro m m' cs h
    simp only [detectLocal, Except.ok.injEq, Prod.mk.injEq] at h
    obtain ⟨hcs, hm⟩ := h
    subst hcs
    subst hm
    exact ⟨List.Sublist.refl _, by simp, by simp⟩
  | cons f fs ih =>
    intro m m' cs h
    simp only [detectLocal, get_relative_path] at h
    by_cases hesc : f.escapesRoot
    · simp [hesc] at h
    · simp only [hesc, Bool.false_eq_true, if_false] at h
      cases hget : index.get_entry f.relPath with
      | some e =>
        simp only [hget] at h
        by_cases hch : (has_changed f e).1 = true
        · rw [if_pos hch] at h
          cases hrec : detectLocal index fs (alErase f.relPath m) with
          | error err => simp [hrec] at h
          | ok p =>
            obtain ⟨cs0, m0⟩ := p
            simp only [hrec, Except.ok.injEq, Prod.mk.injEq] at h
            obtain ⟨hcs, hm⟩ := h
            subst hcs
            subst hm
            obtain ⟨ih1, ih2, ih3⟩ := ih hrec
            refine ⟨ih1.trans (alErase_sublist _ _), ?_, ?_⟩
            · simpa using List.Sublist.cons₂ f.relPath ih2
            · intro c hc
              rcases List.mem_cons.mp hc with hc | hc
              · subst hc
                exact ⟨rfl, alLookup_none_of_sublist ih1 (alLookup_alErase_self _ _)⟩
              · exact ih3 c hc
        · rw [if_neg hch] at h
          obtain ⟨ih1, ih2, ih3⟩ := ih h
          exact ⟨ih1, ih2.cons _, ih3⟩
      | none =>
        simp only [hget] at h
        cases hrec : detectLocal index fs (alErase f.relPath m) with
        | error err => simp [hrec] at h
        | ok p =>
          obtain ⟨cs0, m0⟩ := p
          simp only [hrec, Except.ok.injEq, Prod.mk.injEq] at h
          obtain ⟨hcs, hm⟩ := h
          subst hcs
          subst hm
          obtain ⟨ih1, ih2, ih3⟩ := ih hrec
          refine ⟨ih1.trans (alErase_sublist _ _), ?_, ?_⟩
          · simpa using List.Sublist.cons₂ f.relPath ih2
          · intro c hc
            rcases List.mem_cons.mp hc with hc | hc
            · subst hc
              exact ⟨rfl, alLookup_none_of_sublist ih1 (alLookup_alErase_self _ _)⟩
            · exact ih3 c hc

theorem detectRemoved_spec (existsPath : String → Bool) :
    ∀ (entries : List (String × IndexEntry)) (m : RMap),
      List.Sublist (detectRemoved existsPath entries m).2 m ∧
      List.Sublist ((detectRemoved existsPath entries m).1.map Change.path)
        (entries.map Prod.fst) ∧
      ∀ c ∈ (detectRemoved existsPath entries m).1,
        c.change_type = .Removed ∧ c.local_path = none ∧ existsPath c.path = false ∧
          alLookup c.path (detectRemoved existsPath entries m).2 = none := by
  intro entries
  induction entries with
  | nil =>
    intro m
    exact ⟨List.Sublist.refl _, by simp [detectRemoved], by simp [detectRemoved]⟩
  | cons kv rest ih =>
    intro m
    obtain ⟨path, e⟩ := kv
    by_cases hex : existsPath path
    · simp only [detectRemoved, hex, if_true]
      obtain ⟨ih1, ih2, ih3⟩ := ih m
      exact ⟨ih1, ih2.cons _, ih3⟩
    · simp only [detectRemoved, hex, Bool.false_eq_true, if_false]
      obtain ⟨ih1, ih2, ih3⟩ := ih (alErase path m)
      refine ⟨ih1.trans (alErase_sublist _ _), ?_, ?_⟩
      · simpa using List.Sublist.cons₂ path ih2
      · intro c hc
        rcases List.mem_cons.mp hc with hc | hc
        · subst hc
          refine ⟨rfl, rfl, by simpa using hex, ?_⟩
          exact alLookup_none_of_sublist ih1 (alLookup_alErase_self _ _)
        · exact ih3 c hc

theorem detectRemoved_mem {existsPath : String → Bool}
    {entries : List (String × IndexEntry)} {p : String} {e : IndexEntry}
    (hmem : (p, e) ∈ entries) (hp : existsPath p = false) :
    ∀ m : RMap, ∃ rs, (⟨p, .Removed, none, rs⟩ : Change) ∈ (detectRemoved existsPath entries m).1 := by
  induction entries with
  | nil => simp at hmem
  | cons kv rest ih =>
    intro m
    obtain ⟨q, e'⟩ := kv
    rcases List.mem_cons.mp hmem with h1 | h1
    · rw [Prod.ext_iff] at h1
      obtain ⟨hq, _⟩ := h1
      subst hq
      simp only [detectRemoved, hp, Bool.false_eq_true, if_false]
      exact ⟨alLookup p m, List.mem_cons_self _ _⟩
    · by_cases hex : existsPath q
      · simp only [detectRemoved, hex, if_true]
        exact ih h1 m
      · simp only [detectRemoved, hex, Bool.false_eq_true, if_false]
        obtain ⟨rs, hrs⟩ := ih h1 (alErase q m)
        exact ⟨rs, List.mem_cons_of_mem _ hrs⟩

theorem detectRemote_paths_sublist (index : LocalIndex) (m : RMap) :
    List.Sublist ((detectRemote index m).map Change.path) (m.map Prod.fst) := by
  induction m with
  | nil => simp [detectRemote]
  | cons kv rest ih =>
    obtain ⟨path, stats⟩ := kv
    simp only [detectRemote, List.map_cons]
    cases hget : index.get_entry path with
    | some e =>
      simp only [hget]
      by_cases hck : stats.checksum = e.checksum
      · rw [if_neg (by simp [hck])]
        exact ih.cons _
      · rw [if_pos hck]
        simpa using List.Sublist.cons₂ path ih
    | none =>
      simp only [hget]
      simpa using List.Sublist.cons₂ path ih

theorem detectRemote_path_mem {index : LocalIndex} {m : RMap} {c : Change}
    (hc : c ∈ detectRemote index m) : c.path ∈ m.map Prod.fst :=
  (detectRemote_paths_sublist index m).mem (List.mem_map_of_mem Change.path hc)

theorem detectRemote_mem_modified {index : LocalIndex} {e : IndexEntry} :
    ∀ {m : RMap} {p : String} {stats : ObjectStats},
      (p, stats) ∈ m → index.get_entry p = some e → stats.checksum ≠ e.checksum →
      (⟨p, .Modified, none, some stats⟩ : Change) ∈ detectRemote index m := by
  intro m
  induction m with
  | nil => intro p stats hmem _ _; simp at hmem
  | cons kv rest ih =>
    intro p stats hmem hget hck
    obtain ⟨q, st⟩ := kv
    simp only [detectRemote]
    rcases List.mem_cons.mp hmem with h1 | h1
    · rw [Prod.ext_iff] at h1
      obtain ⟨hq, hst⟩ := h1
      subst hq
      subst hst
      simp only [hget]
      rw [if_pos hck]
      exact List.mem_cons_self _ _
    · cases hget2 : index.get_entry q with
      | some e2 =>
        simp only [hget2]
        by_cases hck2 : st.checksum = e2.checksum
        · rw [if_neg (by simp [hck2])]
          exact ih h1 hget hck
        · rw [if_pos hck2]
          exact List.mem_cons_of_mem _ (ih h1 hget hck)
      | none =>
        simp only [hget2]
        exact List.mem_cons_of_mem _ (ih h1 hget hck)

theorem detectRemote_mem_added {index : LocalIndex} :
    ∀ {m : RMap} {p : String} {stats : ObjectStats},
      (p, stats) ∈ m → index.get_entry p = none →
      (⟨p, .Added, none, some stats⟩ : Change) ∈ detectRemote index m := by
  intro m
  induction m with
  | nil => intro p stats hmem _; simp at hmem
  | cons kv rest ih =>
    intro p stats hmem hget
    obtain ⟨q, st⟩ := kv
    simp only [detectRemote]
    rcases List.mem_cons.mp hmem with h1 | h1
    · rw [Prod.ext_iff] at h1
      obtain ⟨hq, hst⟩ := h1
      subst hq
      subst hst
      simp only [hget]
      exact List.mem_cons_self _ _
    · cases hget2 : index.get_entry q with
      | some e2 =>
        simp only [hget2]
        by_cases hck2 : st.checksum = e2.checksum
        · rw [if_neg (by simp [hck2])]
          exact ih h1 hget
        · rw [if_pos hck2]
          exact List.mem_cons_of_mem _ (ih h1 hget)
      | none =>
        simp only [hget2]
        exact List.mem_cons_of_mem _ (ih h1 hget)

theorem detectRemote_not_mem {index : LocalIndex} {e : IndexEntry} :
    ∀ {m : RMap} {p : String} {stats : ObjectStats},
      index.get_entry p = some e → stats.checksum = e.checksum →
      (m.map Prod.fst).Nodup → (p, stats) ∈ m →
      ∀ c ∈ detectRemote index m, c.path ≠ p := by
  intro m
  induction m with
  | nil => intro p stats _ _ _ hmem; simp at hmem
  | cons kv rest ih =>
    intro p stats hget hck hnd hmem c hc hpath
    obtain ⟨q, st⟩ := kv
    simp only [List.map_cons, List.nodup_cons] at hnd
    rcases List.mem_cons.mp hmem with h1 | h1
    · rw [Prod.ext_iff] at h1
      obtain ⟨hq, hst⟩ := h1
      subst hq
      subst hst
      simp only [detectRemote, hget] at hc
      rw [if_neg (by simp [hck])] at hc
      exact hnd.1 (hpath ▸ detectRemote_path_mem hc)
    · have hpmem : p ∈ rest.map Prod.fst := List.mem_map.mpr ⟨(p, stats), h1, rfl⟩
      have hqp : q ≠ p := fun h => hnd.1 (h ▸ hpmem)
      simp only [detectRemote] at hc
      cases hget2 : index.get_entry q with
      | some e2 =>
        simp only [hget2] at hc
        by_cases hck2 : st.checksum = e2.checksum
        · rw [if_neg (by simp [hck2])] at hc
          exact ih hget hck hnd.2 h1 c hc hpath
        · rw [if_pos hck2] at hc
          rcases List.mem_cons.mp hc with hc | hc
          · subst hc
            exact hqp (by simpa using hpath)
          · exact ih hget hck hnd.2 h1 c hc hpath
      | none =>
        simp only [hget2] at hc
        rcases List.mem_cons.mp hc with hc | hc
        · subst hc
          exact hqp (by simpa using hpath)
        · exact ih hget hck hnd.2 h1 c hc hpath

/-! Helpers about filtering a change list by path. -/

theorem filter_path_eq_nil {cs : List Change} {p : String}
    (h : ∀ c ∈ cs, c.path ≠ p) : cs.filter (fun c' => c'.path = p) = [] := by
  induction cs with
  | nil => rfl
  | cons d rest ih =>
    rw [List.filter_cons_of_neg]
    · exact ih fun c hc => h c (List.mem_cons_of_mem _ hc)
    · simpa using h d (List.mem_cons_self d rest)

theorem filter_path_singleton {cs : List Change} {c : Change}
    (hnd : (cs.map Change.path).Nodup) (hc : c ∈ cs) :
    cs.filter (fun c' => c'.path = c.path) = [c] := by
  induction cs with
  | nil => simp at hc
  | cons d rest ih =>
    simp only [List.map_cons, List.nodup_cons] at hnd
    rcases List.mem_cons.mp hc with h1 | h1
    · subst h1
      rw [List.filter_cons_of_pos (by simp)]
      rw [filter_path_eq_nil]
      intro c' hc' hp
      exact hnd.1 (hp ▸ List.mem_map_of_mem Change.path hc')
    · have hd : d.path ≠ c.path :=
        fun h => hnd.1 (h ▸ List.mem_map_of_mem Change.path h1)
      rw [List.filter_cons_of_neg (by simpa using hd)]
      exact ih hnd.2 h1

/-! Lookup behaviour of insert and erase. -/

theorem alLookup_alInsert_self {α : Type} (k : String) (v : α) (m : List (String × α)) :
    alLookup k (alInsert k v m) = some v := by
  induction m with
  | nil => simp [alInsert, alLookup]
  | cons kv rest ih =>
    obtain ⟨k', v'⟩ := kv
    by_cases hk : k' = k
    · subst hk
      simp [alInsert, alLookup]
    · simp [alInsert, alLookup, hk, ih]

theorem alLookup_alInsert_ne {α : Type} {k k' : String} (h : k' ≠ k) (v : α)
    (m : List (String × α)) : alLookup k (alInsert k' v m) = alLookup k m := by
  induction m with
  | nil => simp [alInsert, alLookup, h]
  | cons kv rest ih =>
    obtain ⟨q, v'⟩ := kv
    by_cases hq : q = k'
    · subst hq
      simp [alInsert, alLookup, h]
    · simp only [alInsert, if_neg hq, alLookup]
      by_cases hqk : q = k
      · simp [hqk]
      · simp [hqk, ih]

theorem alLookup_alErase_ne {α : Type} {k k' : String} (h : k' ≠ k)
    (m : List (String × α)) : alLookup k (alErase k' m) = alLookup k m := by
  induction m with
  | nil => rfl
  | cons kv rest ih =>
    obtain ⟨q, v'⟩ := kv
    by_cases hq : q = k'
    · subst hq
      simp only [alErase, if_pos rfl, alLookup, if_neg h]
      exact ih
    · simp only [alErase, if_neg hq, alLookup]
      by_cases hqk : q = k
      · simp [hqk]
      · simp [hqk, ih]

/-! Lemmas about the result-collection loop of `sync`. -/

theorem mergeResults_errors (index : LocalIndex)
    (results : List (Change × Except Error IndexEntry)) :
    (mergeResults index results).2.errors =
      results.filterMap (fun cr =>
        match cr.2 with
        | .error e => some (cr.1.path, e)
        | .ok _ => none) := by
  induction results generalizing index with
  | nil => rfl
  | cons cr rest ih =>
    obtain ⟨change, res⟩ := cr
    cases res with
    | ok entry =>
      cases hct : change.change_type with
      | Added =>
        simp only [mergeResults, hct, List.filterMap_cons]
        by_cases hlp : change.local_path.isSome <;> simp [hlp, ih]
      | Modified =>
        simp only [mergeResults, hct, List.filterMap_cons]
        by_cases hlp : change.local_path.isSome <;> simp [hlp, ih]
      | Removed =>
        simp only [mergeResults, hct, List.filterMap_cons]
        simp [ih]
    | error e =>
      simp only [mergeResults, List.filterMap_cons]
      simp [ih]

/-- Recognizer for a successful transfer outcome. -/
def transferOk : Except Error IndexEntry → Bool
  | .ok _ => true
  | .error _ => false

theorem mergeResults_counts (index : LocalIndex)
    (results : List (Change × Except Error IndexEntry)) :
    (mergeResults index results).2.uploaded + (mergeResults index results).2.downloaded +
        (mergeResults index results).2.removed =
      (results.filter (fun cr => transferOk cr.2)).length := by
  induction results generalizing index with
  | nil => rfl
  | cons cr rest ih =>
    obtain ⟨change, res⟩ := cr
    cases res with
    | ok entry =>
      cases hct : change.change_type with
      | Added =>
        simp only [mergeResults, hct]
        rw [List.filter_cons_of_pos (by simp [transferOk])]
        by_cases hlp : change.local_path.isSome = true <;>
          simp [hlp, ← ih (index.add_entry change.path entry)] <;> omega
      | Modified =>
        simp only [mergeResults, hct]
        rw [List.filter_cons_of_pos (by simp [transferOk])]
        by_cases hlp : change.local_path.isSome = true <;>
          simp [hlp, ← ih (index.add_entry change.path entry)] <;> omega
      | Removed =>
        simp only [mergeResults, hct]
        rw [List.filter_cons_of_pos (by simp [transferOk])]
        simp [← ih (index.remove_entry change.path)]
        omega
    | error e =>
      simp only [mergeResults]
      rw [List.filter_cons_of_neg (by simp [transferOk])]
      simp [ih]

theorem mergeResults_lookup_untouched
    {results : List (Change × Except Error IndexEntry)} :
    ∀ {index : LocalIndex} {p : String},
      (∀ cr ∈ results, ∀ entry, cr.2 = .ok entry → cr.1.path ≠ p) →
      alLookup p (mergeResults index results).1.entries = alLookup p index.entries := by
  induction results with
  | nil => intro index p _; rfl
  | cons cr rest ih =>
    intro index p h
    obtain ⟨change, res⟩ := cr
    cases res with
    | ok entry =>
      have hne : change.path ≠ p :=
        h (change, .ok entry) (List.mem_cons_self _ _) entry rfl
      have hrest : ∀ cr ∈ rest, ∀ e', cr.2 = .ok e' → cr.1.path ≠ p :=
        fun cr hcr e' he' => h cr (List.mem_cons_of_mem _ hcr) e' he'
      cases hct : change.change_type with
      | Added =>
        simp only [mergeResults, hct]
        split <;>
          (dsimp only; rw [ih hrest]; exact alLookup_alInsert_ne hne entry index.entries)
      | Modified =>
        simp only [mergeResults, hct]
        split <;>
          (dsimp only; rw [ih hrest]; exact alLookup_alInsert_ne hne entry index.entries)
      | Removed =>
        simp only [mergeResults, hct]
        rw [ih hrest]
        exact alLookup_alErase_ne hne index.entries
    | error e =>
      have hrest : ∀ cr ∈ rest, ∀ e', cr.2 = .ok e' → cr.1.path ≠ p :=
        fun cr hcr e' he' => h cr (List.mem_cons_of_mem _ hcr) e' he'
      simp only [mergeResults]
      exact ih hrest

theorem mergeResults_applied
    {results : List (Change × Except Error IndexEntry)} :
    ∀ {index : LocalIndex} {change : Change} {entry : IndexEntry},
      (change, Except.ok entry) ∈ results →
      (results.map (fun cr => cr.1.path)).Nodup →
      ((change.change_type = .Added ∨ change.change_type = .Modified) →
        alLookup change.path (mergeResults index results).1.entries = some entry) ∧
      (change.change_type = .Removed →
        alLookup change.path (mergeResults index results).1.entries = none) := by
  induction results with
  | nil => intro index change entry hmem _; simp at hmem
  | cons cr rest ih =>
    intro index change entry hmem hnd
    simp only [List.map_cons, List.nodup_cons] at hnd
    rcases List.mem_cons.mp hmem with h1 | h1
    · subst h1
      have huntouched : ∀ cr ∈ rest, ∀ e', cr.2 = .ok e' → cr.1.path ≠ change.path :=
        fun cr hcr e' _ hp =>
          hnd.1 (hp ▸ List.mem_map.mpr ⟨cr, hcr, rfl⟩)
      constructor
      · intro hct
        rcases hct with hct | hct <;>
          simp only [mergeResults, hct] <;>
          (split <;>
            (dsimp only; rw [mergeResults_lookup_untouched huntouched];
              exact alLookup_alInsert_self change.path entry index.entries))
      · intro hct
        simp only [mergeResults, hct]
        rw [mergeResults_lookup_untouched huntouched]
        exact alLookup_alErase_self change.path index.entries
    · obtain ⟨d, res⟩ := cr
      cases res with
      | ok e' =>
        cases hct : d.change_type with
        | Added =>
          simp only [mergeResults, hct]
          split <;> (dsimp only; exact ih h1 hnd.2)
        | Modified =>
          simp only [mergeResults, hct]
          split <;> (dsimp only; exact ih h1 hnd.2)
        | Removed =>
          simp only [mergeResults, hct]
          exact ih h1 hnd.2
      | error e =>
        simp only [mergeResults]
        exact ih h1 hnd.2

/-! The claims. -/

/-- C8: for every stored snapshot that parses to an index whose version
differs from the engine's supported version (1), `load` fails with exactly
the unsupported-version failure — `Error.Index` carrying the
"Unsupported index version" message, which is how the code realizes the
spec's `UnsupportedVersion` kind (the read-failure and parse-failure kinds
carry the "Failed to read index" / "Failed to parse index" messages
instead) — and never returns an index. -/
theorem c8_load_version_gate (idx : LocalIndex) (h : idx.version ≠ LocalIndex.VERSION) :
    LocalIndex.load (.parsed idx) =
      .error (.Index ("Unsupported index version: " ++ toString idx.version)) ∧
    ∀ i : LocalIndex, LocalIndex.load (.parsed idx) ≠ .ok i := by
  constructor
  · simp [LocalIndex.load, h]
  · intro i hcontra
    simp [LocalIndex.load, h] at hcontra

/-- Concrete version-2 snapshot for the C8 witness. -/
def c8Idx : LocalIndex :=
  { version := 2, repository := "repo", reference := "main", head_commit := "c0",
    entries := [], last_sync := 0 }

/-- Witness for C8 at a concrete version-2 snapshot. -/
theorem c8_load_version_gate_witness :
    c8Idx.version ≠ LocalIndex.VERSION ∧
    (LocalIndex.load (.parsed c8Idx) =
        .error (.Index ("Unsupported index version: " ++ toString c8Idx.version)) ∧
      ∀ i : LocalIndex, LocalIndex.load (.parsed c8Idx) ≠ .ok i) :=
  ⟨by decide, c8_load_version_gate c8Idx (by decide)⟩

/-- Concrete pass for the C1 counterexample: the stored index file holds
corrupt bytes (it fails to parse), the branch resolves, the tree and the
listing are empty. -/
def c1Env : SyncEnv :=
  { root := "/tree"
    repository := "repo"
    reference := "main"
    tree := { files := [], existsPath := fun _ => false }
    storedIndex := .unparsable "expected value at line 1 column 1"
    branchCommit := .ok "c0"
    branchCommit2 := .ok "c1"
    listRes := .ok []
    transfer := fun _ => .error (.Sync "unreachable")
    now := 0 }

/-- C1 counterexample: the claim says a corrupt snapshot is fatal and aborts
the pass before any mutation, but `sync` matches `Err(_)` on the load result,
so a corrupt snapshot self-heals exactly like a missing one: the pass
completes successfully and even writes a fresh index snapshot (two
filesystem operations) instead of aborting. -/
theorem c1_corrupt_load_not_fatal :
    LocalIndex.load c1Env.storedIndex =
      .error (.Index ("Failed to parse index: " ++ "expected value at line 1 column 1")) ∧
    (sync c1Env).1 = .ok ⟨0, 0, 0, []⟩ ∧
    (sync c1Env).2.length = 2 :=
  ⟨rfl, rfl, rfl⟩

/-- C1 amended: the pass self-heals on every load failure, not only on a
missing snapshot — whenever `LocalIndex::load` fails for any reason and the
branch resolves, `sync` proceeds with a fresh empty index bound to the
target repository and reference. -/
theorem c1_selfheal_any_load_failure (f : StoredIndexFile) (e : Error)
    (hfail : LocalIndex.load f = .error e)
    (commit repository reference : String) (now : Int) :
    loadOrCreate (LocalIndex.load f) (.ok commit) repository reference now =
      .ok (LocalIndex.new repository reference commit now) := by
  rw [hfail]
  rfl

/-- Witness for the amended C1 at a concrete missing-snapshot failure. -/
theorem c1_selfheal_witness :
    LocalIndex.load (.missing "No such file or directory (os error 2)") =
      .error (.Index ("Failed to read index: " ++ "No such file or directory (os error 2)")) ∧
    loadOrCreate (LocalIndex.load (.missing "No such file or directory (os error 2)"))
        (.ok "c0") "repo" "main" 0 =
      .ok (LocalIndex.new "repo" "main" "c0" 0) :=
  ⟨rfl, c1_selfheal_any_load_failure (.missing "No such file or directory (os error 2)")
    (.Index ("Failed to read index: " ++ "No such file or directory (os error 2)"))
    rfl "c0" "repo" "main" 0⟩

/-- Concrete index for the C2 counterexample. -/
def c2Index : LocalIndex := LocalIndex.new "repo" "main" "c0" 0

/-- C2 counterexample: the claim says `save` writes the serialized index to
a temporary path and renames it over the target, but the trace of filesystem
operations `save` issues contains no rename at all — the single write goes
directly to the final target path. -/
theorem c2_save_no_rename_counterexample :
    (c2Index.save "/tree").filter (fun op => op.isRename) = [] ∧
    FsOp.write ("/tree/" ++ INDEX_FILE) (serializeIndex c2Index) ∈ c2Index.save "/tree" := by
  constructor
  · rfl
  · simp [LocalIndex.save]

/-- C2 amended: for every index and root, `save` creates the containing
directory and writes the serialized index directly to the target path in a
single write; it performs no rename (there is no temporary-path-and-rename
step, so the overwrite is not atomic by rename). -/
theorem c2_save_direct_write (idx : LocalIndex) (root : String) :
    FsOp.write (root ++ "/" ++ INDEX_FILE) (serializeIndex idx) ∈ idx.save root ∧
    FsOp.createDirAll (root ++ "/.lakectl") ∈ idx.save root ∧
    (idx.save root).filter (fun op => op.isRename) = [] := by
  refine ⟨?_, ?_, rfl⟩ <;> simp [LocalIndex.save]

/-- C6: if the remote listing call fails — or, the pass having loaded an
index and obtained a listing, change detection fails — then `sync` aborts
with an error and issues no filesystem write at all, so the on-disk index is
byte-identical to its state before the pass. -/
theorem c6_fatal_abort_no_write (env : SyncEnv)
    (h : (∃ e, env.listRes = .error e) ∨
      (∀ index objs,
        loadOrCreate (LocalIndex.load env.storedIndex) env.branchCommit
            env.repository env.reference env.now = .ok index →
        env.listRes = .ok objs →
        ∃ e, detect_changes env.tree index objs = .error e)) :
    (sync env).2 = [] ∧ ∀ r, (sync env).1 ≠ .ok r := by
  simp only [sync]
  cases hl : loadOrCreate (LocalIndex.load env.storedIndex) env.branchCommit
      env.repository env.reference env.now with
  | error e' => simp
  | ok index =>
    cases hlist : env.listRes with
    | error e' => simp
    | ok objs =>
      rcases h with ⟨e, he⟩ | hdet
      · rw [he] at hlist
        cases hlist
      · obtain ⟨e, hdeq⟩ := hdet index objs hl hlist
        simp [hdeq]

/-- Concrete pass for the C6 witness: a valid stored snapshot, a failing
listing call. -/
def c6Env : SyncEnv :=
  { root := "/tree"
    repository := "repo"
    reference := "main"
    tree := { files := [], existsPath := fun _ => false }
    storedIndex := .parsed (LocalIndex.new "repo" "main" "c0" 0)
    branchCommit := .ok "c0"
    branchCommit2 := .ok "c1"
    listRes := .error (.Api "503 service unavailable")
    transfer := fun _ => .error (.Sync "unreachable")
    now := 0 }

/-- Witness for C6 at a concrete failing listing call. -/
theorem c6_fatal_abort_witness :
    ((∃ e, c6Env.listRes = .error e) ∨
      (∀ index objs,
        loadOrCreate (LocalIndex.load c6Env.storedIndex) c6Env.branchCommit
            c6Env.repository c6Env.reference c6Env.now = .ok index →
        c6Env.listRes = .ok objs →
        ∃ e, detect_changes c6Env.tree index objs = .error e)) ∧
    ((sync c6Env).2 = [] ∧ ∀ r, (sync c6Env).1 ≠ .ok r) :=
  ⟨Or.inl ⟨.Api "503 service unavailable", rfl⟩,
    c6_fatal_abort_no_write c6Env (Or.inl ⟨.Api "503 service unavailable", rfl⟩)⟩

/-- C3: for every enumerated local file that is present in the index, the
walk step applies the tiered change test: a size mismatch emits `Modified`
immediately with no checksum computed; equal sizes with a modification time
not strictly newer than the indexed one emit nothing and compute no
checksum; equal sizes with a strictly newer modification time compute the
checksum, and emit `Modified` exactly when it differs from the indexed
checksum — in particular a matching checksum emits nothing. -/
theorem c3_tiered_change_test (index : LocalIndex) (f : LocalFile) (e : IndexEntry)
    (fs : List LocalFile) (m : RMap)
    (hesc : f.escapesRoot = false)
    (hget : index.get_entry f.relPath = some e) :
    (f.size ≠ e.size →
      has_changed f e = (true, false) ∧
      detectLocal index (f :: fs) m =
        Except.map
          (fun r => (⟨f.relPath, .Modified, some f.relPath, alLookup f.relPath m⟩ :: r.1, r.2))
          (detectLocal index fs (alErase f.relPath m))) ∧
    (f.size = e.size → ¬ e.mtime < f.mtime →
      has_changed f e = (false, false) ∧
      detectLocal index (f :: fs) m = detectLocal index fs m) ∧
    (f.size = e.size → e.mtime < f.mtime →
      (has_changed f e).2 = true ∧
      ((has_changed f e).1 = true ↔ f.checksum ≠ e.checksum) ∧
      (f.checksum = e.checksum → detectLocal index (f :: fs) m = detectLocal index fs m)) := by
  refine ⟨?_, ?_, ?_⟩
  · intro hsz
    have hhc : has_changed f e = (true, false) := by simp [has_changed, hsz]
    refine ⟨hhc, ?_⟩
    simp only [detectLocal, get_relative_path, hesc, Bool.false_eq_true, if_false, hget, hhc]
    cases hrec : detectLocal index fs (alErase f.relPath m) with
    | error err => rfl
    | ok p =>
      obtain ⟨cs, m'⟩ := p
      rfl
  · intro hsz hmt
    have hhc : has_changed f e = (false, false) := by simp [has_changed, hsz, hmt]
    refine ⟨hhc, ?_⟩
    simp only [detectLocal, get_relative_path, hesc, Bool.false_eq_true, if_false, hget, hhc]
  · intro hsz hmt
    have hhc : has_changed f e = (decide (f.checksum ≠ e.checksum), true) := by
      simp [has_changed, hsz, hmt]
    refine ⟨by simp [hhc], by simp [hhc], ?_⟩
    intro hck
    have hfalse : has_changed f e = (false, true) := by simp [has_changed, hsz, hmt, hck]
    simp only [detectLocal, get_relative_path, hesc, Bool.false_eq_true, if_false, hget, hfalse]

/-- Concrete inputs for the C3 witness: a file whose size matches its index
entry, whose modification time is strictly newer, and whose checksum
matches (so no change is emitted). -/
def c3File : LocalFile := ⟨"a.txt", 3, 10, "h1", false⟩

/-- Index entry backing the C3 witness. -/
def c3Entry : IndexEntry := ⟨"a.txt", "h1", 3, 5, none⟩

/-- Index for the C3 witness. -/
def c3Index : LocalIndex :=
  { version := 1, repository := "repo", reference := "main", head_commit := "c0",
    entries := [("a.txt", c3Entry)], last_sync := 0 }

/-- Witness for C3 at the concrete file/entry pair. -/
theorem c3_tiered_change_test_witness :
    c3File.escapesRoot = false ∧
    c3Index.get_entry c3File.relPath = some c3Entry ∧
    ((c3File.size ≠ c3Entry.size →
      has_changed c3File c3Entry = (true, false) ∧
      detectLocal c3Index [c3File] [] =
        Except.map
          (fun r =>
            (⟨c3File.relPath, .Modified, some c3File.relPath, alLookup c3File.relPath []⟩ :: r.1,
              r.2))
          (detectLocal c3Index [] (alErase c3File.relPath []))) ∧
    (c3File.size = c3Entry.size → ¬ c3Entry.mtime < c3File.mtime →
      has_changed c3File c3Entry = (false, false) ∧
      detectLocal c3Index [c3File] [] = detectLocal c3Index [] []) ∧
    (c3File.size = c3Entry.size → c3Entry.mtime < c3File.mtime →
      (has_changed c3File c3Entry).2 = true ∧
      ((has_changed c3File c3Entry).1 = true ↔ c3File.checksum ≠ c3Entry.checksum) ∧
      (c3File.checksum = c3Entry.checksum →
        detectLocal c3Index [c3File] [] = detectLocal c3Index [] []))) :=
  ⟨rfl, by decide, c3_tiered_change_test c3Index c3File c3Entry [] [] rfl (by decide)⟩

/-- Index entry for the C4 counterexample: a tracked dotfile. -/
def c4Entry : IndexEntry := ⟨".hidden", "abc123", 3, 0, none⟩

/-- Index for the C4 counterexample. -/
def c4Index : LocalIndex :=
  { version := 1, repository := "repo", reference := "main", head_commit := "c0",
    entries := [(".hidden", c4Entry)], last_sync := 0 }

/-- Tree for the C4 counterexample: the dotfile exists on disk but the
filtered enumeration excludes it. -/
def c4Tree : LocalTree := { files := [], existsPath := fun p => p = ".hidden" }

/-- C4 counterexample: the path ".hidden" is in the index and absent from
the local enumeration of regular files (as a dotfile the walk filters it
out), so the claim demands a `Removed` change — but the source tests
`!local_path.exists()`, the dotfile does exist on disk, and detection
returns an empty change set. -/
theorem c4_removed_counterexample :
    (".hidden", c4Entry) ∈ c4Index.entries ∧
    c4Tree.files = [] ∧
    c4Tree.existsPath ".hidden" = true ∧
    detect_changes c4Tree c4Index [] = .ok [] :=
  ⟨List.mem_cons_self _ _, rfl, by decide, by decide⟩

/-- C4 amended: for every path present in the index whose joined local path
does not exist on disk (`!local_path.exists()` — existence on disk, not
absence from the filtered enumeration, is what the detector tests),
detection emits exactly one change for that path: `Removed` with no local
presence, paired with the consumed remote entry when one survives the walk. -/
theorem c4_removed_on_nonexistent_path (tree : LocalTree) (index : LocalIndex)
    (remote : List ObjectStats) (p : String) (e : IndexEntry) (changes : List Change)
    (hmem : (p, e) ∈ index.entries)
    (hnd : (index.entries.map Prod.fst).Nodup)
    (hwf : ∀ f ∈ tree.files, tree.existsPath f.relPath = true)
    (hex : tree.existsPath p = false)
    (hdet : detect_changes tree index remote = .ok changes) :
    ∃ rs, changes.filter (fun c => c.path = p) = [⟨p, .Removed, none, rs⟩] := by
  cases h1 : detectLocal index tree.files (buildRemoteMap remote) with
  | error err =>
    rw [detect_changes, h1] at hdet
    cases hdet
  | ok pr =>
    obtain ⟨c1, m1⟩ := pr
    rw [detect_changes, h1] at hdet
    rw [Except.ok.injEq] at hdet
    subst hdet
    obtain ⟨l1, l2, l3⟩ := detectLocal_spec h1
    obtain ⟨r1, r2, r3⟩ := detectRemoved_spec tree.existsPath index.entries m1
    obtain ⟨rs, hrs⟩ := detectRemoved_mem hmem hex m1
    refine ⟨rs, ?_⟩
    rw [List.filter_append, List.filter_append]
    have hc1 : c1.filter (fun c => c.path = p) = [] := by
      apply filter_path_eq_nil
      intro c hc hp
      have hcp : c.path ∈ tree.files.map LocalFile.relPath :=
        l2.mem (List.mem_map_of_mem Change.path hc)
      obtain ⟨f, hf, hfp⟩ := List.mem_map.mp hcp
      have := hwf f hf
      rw [hfp, hp, hex] at this
      cases this
    have hc2 : (detectRemoved tree.existsPath index.entries m1).1.filter
        (fun c => c.path = p) = [(⟨p, .Removed, none, rs⟩ : Change)] := by
      have hnd2 : ((detectRemoved tree.existsPath index.entries m1).1.map Change.path).Nodup :=
        hnd.sublist r2
      exact filter_path_singleton hnd2 hrs
    have hc3 : (detectRemote index (detectRemoved tree.existsPath index.entries m1).2).filter
        (fun c => c.path = p) = [] := by
      apply filter_path_eq_nil
      intro c hc hp
      have hnone : alLookup p (detectRemoved tree.existsPath index.entries m1).2 = none :=
        (r3 _ hrs).2.2.2
      have hkey : c.path ∈ (detectRemoved tree.existsPath index.entries m1).2.map Prod.fst :=
        detectRemote_path_mem hc
      rw [hp] at hkey
      exact (alLookup_eq_none_iff p _).mp hnone hkey
    rw [hc1, hc2, hc3]
    rfl

/-- Witness for the amended C4: one tracked path, no file on disk, one
matching remote object. -/
def c4wObj : ObjectStats := ⟨"gone.txt", .Object, "s3://b/o", "abc123", 3, 0, none⟩

/-- Entry for the amended-C4 witness. -/
def c4wEntry : IndexEntry := ⟨"gone.txt", "abc123", 3, 0, none⟩

/-- Index for the amended-C4 witness. -/
def c4wIndex : LocalIndex :=
  { version := 1, repository := "repo", reference := "main", head_commit := "c0",
    entries := [("gone.txt", c4wEntry)], last_sync := 0 }

/-- Witness for the amended C4. -/
theorem c4_removed_witness :
    ("gone.txt", c4wEntry) ∈ c4wIndex.entries ∧
    (c4wIndex.entries.map Prod.fst).Nodup ∧
    (∀ f ∈ (⟨[], fun _ => false⟩ : LocalTree).files,
      (⟨[], fun _ => false⟩ : LocalTree).existsPath f.relPath = true) ∧
    (⟨[], fun _ => false⟩ : LocalTree).existsPath "gone.txt" = false ∧
    detect_changes ⟨[], fun _ => false⟩ c4wIndex [c4wObj] =
      .ok [⟨"gone.txt", .Removed, none, some c4wObj⟩] ∧
    ∃ rs, ([(⟨"gone.txt", .Removed, none, some c4wObj⟩ : Change)]).filter
        (fun c => c.path = "gone.txt") = [⟨"gone.txt", .Removed, none, rs⟩] :=
  ⟨List.mem_cons_self _ _, by decide, by simp, rfl, by decide,
    c4_removed_on_nonexistent_path ⟨[], fun _ => false⟩ c4wIndex [c4wObj] "gone.txt" c4wEntry
      [⟨"gone.txt", .Removed, none, some c4wObj⟩]
      (List.mem_cons_self _ _) (by decide) (by simp) rfl (by decide)⟩

/-- C9: for every remote listing entry that survives the local-file and
removed-path steps unconsumed, the remote step emits `Modified` with no
local presence when the path is indexed with a differing checksum, `Added`
with no local presence when the path is not indexed, and — when the path is
indexed with an equal checksum — no change is emitted for that path anywhere
in the result. -/
theorem c9_remote_step (tree : LocalTree) (index : LocalIndex)
    (remote : List ObjectStats) (c1 : List Change) (m1 : RMap)
    (p : String) (stats : ObjectStats) (changes : List Change)
    (h1 : detectLocal index tree.files (buildRemoteMap remote) = .ok (c1, m1))
    (hdet : detect_changes tree index remote = .ok changes)
    (hmem : alLookup p (detectRemoved tree.existsPath index.entries m1).2 = some stats) :
    (∀ e, index.get_entry p = some e → stats.checksum ≠ e.checksum →
      (⟨p, .Modified, none, some stats⟩ : Change) ∈ changes) ∧
    (index.get_entry p = none → (⟨p, .Added, none, some stats⟩ : Change) ∈ changes) ∧
    (∀ e, index.get_entry p = some e → stats.checksum = e.checksum →
      ∀ c ∈ changes, c.path ≠ p) := by
  rw [detect_changes, h1, Except.ok.injEq] at hdet
  subst hdet
  obtain ⟨l1, l2, l3⟩ := detectLocal_spec h1
  obtain ⟨r1, r2, r3⟩ := detectRemoved_spec tree.existsPath index.entries m1
  have hpm : (p, stats) ∈ (detectRemoved tree.existsPath index.entries m1).2 :=
    mem_of_alLookup_eq_some hmem
  have hnd1 : (m1.map Prod.fst).Nodup :=
    (buildRemoteMap_keys_nodup remote).sublist (l1.map Prod.fst)
  have hnd2 : ((detectRemoved tree.existsPath index.entries m1).2.map Prod.fst).Nodup :=
    hnd1.sublist (r1.map Prod.fst)
  refine ⟨?_, ?_, ?_⟩
  · intro e hget hck
    have hm := detectRemote_mem_modified hpm hget hck
    simp only [List.mem_append]
    exact Or.inr hm
  · intro hget
    have hm := detectRemote_mem_added hpm hget
    simp only [List.mem_append]
    exact Or.inr hm
  · intro e hget hck c hc hp
    rcases List.mem_append.mp hc with hc | hc
    · rcases List.mem_append.mp hc with hc | hc
      · have hnone : alLookup p m1 = none := hp ▸ (l3 c hc).2
        have : alLookup p (detectRemoved tree.existsPath index.entries m1).2 = none :=
          alLookup_none_of_sublist r1 hnone
        rw [hmem] at this
        cases this
      · have hnone : alLookup p (detectRemoved tree.existsPath index.entries m1).2 = none :=
          hp ▸ (r3 c hc).2.2.2
        rw [hmem] at hnone
        cases hnone
    · exact detectRemote_not_mem hget hck hnd2 hpm c hc hp

/-- Remote object for the C9 witness: the spec's remote-only addition. -/
def c9Obj : ObjectStats := ⟨"remote-only.txt", .Object, "s3://b/o", "remote123", 200, 0, none⟩

/-- Fresh empty index for the C9 witness. -/
def c9Index : LocalIndex := LocalIndex.new "repo" "main" "c0" 0

/-- Empty tree for the C9 witness. -/
def c9Tree : LocalTree := ⟨[], fun _ => false⟩

/-- Witness for C9: the remote-only object survives steps 1–2 unconsumed and
is not indexed, so the second bullet fires and detection yields exactly the
`Added` change with no local presence. -/
theorem c9_remote_step_witness :
    detectLocal c9Index c9Tree.files (buildRemoteMap [c9Obj]) =
      .ok ([], [("remote-only.txt", c9Obj)]) ∧
    detect_changes c9Tree c9Index [c9Obj] =
      .ok [⟨"remote-only.txt", .Added, none, some c9Obj⟩] ∧
    alLookup "remote-only.txt"
      (detectRemoved c9Tree.existsPath c9Index.entries [("remote-only.txt", c9Obj)]).2 =
      some c9Obj ∧
    ((∀ e, c9Index.get_entry "remote-only.txt" = some e → c9Obj.checksum ≠ e.checksum →
      (⟨"remote-only.txt", .Modified, none, some c9Obj⟩ : Change) ∈
        [(⟨"remote-only.txt", .Added, none, some c9Obj⟩ : Change)]) ∧
    (c9Index.get_entry "remote-only.txt" = none →
      (⟨"remote-only.txt", .Added, none, some c9Obj⟩ : Change) ∈
        [(⟨"remote-only.txt", .Added, none, some c9Obj⟩ : Change)]) ∧
    (∀ e, c9Index.get_entry "remote-only.txt" = some e → c9Obj.checksum = e.checksum →
      ∀ c ∈ [(⟨"remote-only.txt", .Added, none, some c9Obj⟩ : Change)],
        c.path ≠ "remote-only.txt")) :=
  ⟨by decide, by decide, by decide,
    c9_remote_step c9Tree c9Index [c9Obj] [] [("remote-only.txt", c9Obj)]
      "remote-only.txt" c9Obj [⟨"remote-only.txt", .Added, none, some c9Obj⟩]
      (by decide) (by decide) (by decide)⟩

/-- C10: for every tree (with distinct enumerated paths, each enumerated
file existing on disk), index (with distinct keys) and remote listing, the
change set returned by `detect_changes` contains at most one change per
path: each of the three steps emits distinct paths, a local or removed
change consumes the matching remote entry, and local changes concern
existing files while removed changes concern non-existent paths. -/
theorem c10_at_most_one_change_per_path (tree : LocalTree) (index : LocalIndex)
    (remote : List ObjectStats) (changes : List Change)
    (hfiles : (tree.files.map LocalFile.relPath).Nodup)
    (hindex : (index.entries.map Prod.fst).Nodup)
    (hwf : ∀ f ∈ tree.files, tree.existsPath f.relPath = true)
    (hdet : detect_changes tree index remote = .ok changes) :
    (changes.map Change.path).Nodup := by
  cases h1 : detectLocal index tree.files (buildRemoteMap remote) with
  | error err =>
    rw [detect_changes, h1] at hdet
    cases hdet
  | ok pr =>
    obtain ⟨c1, m1⟩ := pr
    rw [detect_changes, h1, Except.ok.injEq] at hdet
    subst hdet
    obtain ⟨l1, l2, l3⟩ := detectLocal_spec h1
    obtain ⟨r1, r2, r3⟩ := detectRemoved_spec tree.existsPath index.entries m1
    have hnd1 : (m1.map Prod.fst).Nodup :=
      (buildRemoteMap_keys_nodup remote).sublist (l1.map Prod.fst)
    have hndm2 : ((detectRemoved tree.existsPath index.entries m1).2.map Prod.fst).Nodup :=
      hnd1.sublist (r1.map Prod.fst)
    have ndA : (c1.map Change.path).Nodup := hfiles.sublist l2
    have ndB : ((detectRemoved tree.existsPath index.entries m1).1.map Change.path).Nodup :=
      hindex.sublist r2
    have ndC : ((detectRemote index
        (detectRemoved tree.existsPath index.entries m1).2).map Change.path).Nodup :=
      hndm2.sublist (detectRemote_paths_sublist index _)
    have hAexists : ∀ a ∈ c1.map Change.path, tree.existsPath a = true := by
      intro a ha
      have : a ∈ tree.files.map LocalFile.relPath := l2.mem ha
      obtain ⟨f, hf, hfp⟩ := List.mem_map.mp this
      exact hfp ▸ hwf f hf
    have hAm2 : ∀ a ∈ c1.map Change.path,
        alLookup a (detectRemoved tree.existsPath index.entries m1).2 = none := by
      intro a ha
      obtain ⟨c, hc, hcp⟩ := List.mem_map.mp ha
      exact hcp ▸ alLookup_none_of_sublist r1 (l3 c hc).2
    have hBexists : ∀ a ∈ (detectRemoved tree.existsPath index.entries m1).1.map Change.path,
        tree.existsPath a = false := by
      intro a ha
      obtain ⟨c, hc, hcp⟩ := List.mem_map.mp ha
      exact hcp ▸ (r3 c hc).2.2.1
    have hBm2 : ∀ a ∈ (detectRemoved tree.existsPath index.entries m1).1.map Change.path,
        alLookup a (detectRemoved tree.existsPath index.entries m1).2 = none := by
      intro a ha
      obtain ⟨c, hc, hcp⟩ := List.mem_map.mp ha
      exact hcp ▸ (r3 c hc).2.2.2
    have hCkeys : ∀ a ∈ (detectRemote index
        (detectRemoved tree.existsPath index.entries m1).2).map Change.path,
        a ∈ (detectRemoved tree.existsPath index.entries m1).2.map Prod.fst := by
      intro a ha
      obtain ⟨c, hc, hcp⟩ := List.mem_map.mp ha
      exact hcp ▸ detectRemote_path_mem hc
    rw [List.map_append, List.map_append]
    refine List.Nodup.append (List.Nodup.append ndA ndB ?_) ndC ?_
    · intro a haA haB
      have h1x := hAexists a haA
      have h2x := hBexists a haB
      rw [h1x] at h2x
      cases h2x
    · intro a haAB haC
      rcases List.mem_append.mp haAB with haA | haB
      · exact (alLookup_eq_none_iff a _).mp (hAm2 a haA) (hCkeys a haC)
      · exact (alLookup_eq_none_iff a _).mp (hBm2 a haB) (hCkeys a haC)

/-- Local file for the C10 witness. -/
def c10File : LocalFile := ⟨"a.txt", 7, 5, "h1", false⟩

/-- Tree for the C10 witness: one enumerated file, only it exists on disk. -/
def c10Tree : LocalTree := ⟨[c10File], fun p => p = "a.txt"⟩

/-- Index for the C10 witness: one tracked path no longer on disk. -/
def c10Index : LocalIndex :=
  { version := 1, repository := "repo", reference := "main", head_commit := "c0",
    entries := [("gone.txt", ⟨"gone.txt", "x", 1, 0, none⟩)], last_sync := 0 }

/-- Remote object for the C10 witness. -/
def c10Obj : ObjectStats := ⟨"r.txt", .Object, "pa", "ck", 1, 0, none⟩

/-- Witness for C10: a pass with one local `Added`, one `Removed` and one
remote `Added` yields three changes whose paths are distinct. -/
theorem c10_at_most_one_change_per_path_witness :
    (c10Tree.files.map LocalFile.relPath).Nodup ∧
    (c10Index.entries.map Prod.fst).Nodup ∧
    (∀ f ∈ c10Tree.files, c10Tree.existsPath f.relPath = true) ∧
    detect_changes c10Tree c10Index [c10Obj] =
      .ok [⟨"a.txt", .Added, some "a.txt", none⟩,
        ⟨"gone.txt", .Removed, none, none⟩,
        ⟨"r.txt", .Added, none, some c10Obj⟩] ∧
    (([(⟨"a.txt", .Added, some "a.txt", none⟩ : Change),
        ⟨"gone.txt", .Removed, none, none⟩,
        ⟨"r.txt", .Added, none, some c10Obj⟩].map Change.path)).Nodup :=
  ⟨by decide, by decide, by decide, by decide,
    c10_at_most_one_change_per_path c10Tree c10Index [c10Obj]
      [⟨"a.txt", .Added, some "a.txt", none⟩,
        ⟨"gone.txt", .Removed, none, none⟩,
        ⟨"r.txt", .Added, none, some c10Obj⟩]
      (by decide) (by decide) (by decide) (by decide)⟩

/-- C5: in a pass that reaches the transfer phase (load, listing, detection
and the final head resolution all succeed), every change's transfer outcome
is consulted: each failing change contributes its (path, error) pair to the
summary's error list, the successful ones are counted
(uploaded + downloaded + removed equals the number of successes), each
successful `Added`/`Modified` change's entry is present in the saved index
and each successful `Removed` change's path is absent from it, and the pass
still saves that index. -/
theorem c5_partial_failure_contract (env : SyncEnv) (index : LocalIndex)
    (objs : List ObjectStats) (changes : List Change) (commit : String)
    (hload : loadOrCreate (LocalIndex.load env.storedIndex) env.branchCommit
        env.repository env.reference env.now = .ok index)
    (hlist : env.listRes = .ok objs)
    (hdet : detect_changes env.tree index objs = .ok changes)
    (hbr : env.branchCommit2 = .ok commit)
    (hnd : (changes.map Change.path).Nodup) :
    ∃ (summary : SyncResult) (finalIndex : LocalIndex),
      (sync env).1 = .ok summary ∧
      (sync env).2 = finalIndex.save env.root ∧
      summary.errors = changes.filterMap (fun c =>
        match env.transfer c with
        | .error e => some (c.path, e)
        | .ok _ => none) ∧
      summary.uploaded + summary.downloaded + summary.removed =
        (changes.filter (fun c => transferOk (env.transfer c))).length ∧
      ∀ c ∈ changes, ∀ entry, env.transfer c = .ok entry →
        ((c.change_type = .Added ∨ c.change_type = .Modified) →
          alLookup c.path finalIndex.entries = some entry) ∧
        (c.change_type = .Removed → alLookup c.path finalIndex.entries = none) := by
  have hsync : sync env =
      (.ok (mergeResults index (changes.map (fun c => (c, env.transfer c)))).2,
        ((mergeResults index (changes.map (fun c => (c, env.transfer c)))).1.update_head
          commit env.now).save env.root) := by
    simp only [sync, hload, hlist, hdet, hbr]
  refine ⟨(mergeResults index (changes.map (fun c => (c, env.transfer c)))).2,
    (mergeResults index (changes.map (fun c => (c, env.transfer c)))).1.update_head
      commit env.now, by rw [hsync], by rw [hsync], ?_, ?_, ?_⟩
  · rw [mergeResults_errors, List.filterMap_map]
    rfl
  · rw [mergeResults_counts, List.filter_map, List.length_map]
    rfl
  · intro c hc entry htr
    have hmem : (c, Except.ok entry) ∈ changes.map (fun c => (c, env.transfer c)) :=
      List.mem_map.mpr ⟨c, hc, by simp [htr]⟩
    have hnd' : ((changes.map (fun c => (c, env.transfer c))).map
        (fun cr => cr.1.path)).Nodup := by
      rw [List.map_map]
      exact hnd
    exact mergeResults_applied hmem hnd'

/-- Index entry for the C5 witness: the tracked path that will be removed. -/
def c5Entry : IndexEntry := ⟨"gone.txt", "x", 1, 0, none⟩

/-- Stored index for the C5 witness. -/
def c5StoredIndex : LocalIndex :=
  { version := 1, repository := "repo", reference := "main", head_commit := "c0",
    entries := [("gone.txt", c5Entry)], last_sync := 0 }

/-- Pass for the C5 witness: three changes, the transfer of "b.txt" fails. -/
def c5Env : SyncEnv :=
  { root := "/tree", repository := "repo", reference := "main",
    tree := ⟨[⟨"a.txt", 7, 5, "h1", false⟩, ⟨"b.txt", 8, 6, "h2", false⟩],
      fun p => p ≠ "gone.txt"⟩,
    storedIndex := .parsed c5StoredIndex,
    branchCommit := .ok "c0", branchCommit2 := .ok "c1",
    listRes := .ok [],
    transfer := fun c =>
      if c.path = "b.txt" then .error (.Api "500 internal error")
      else .ok ⟨c.path, "ck", 7, 9, none⟩,
    now := 0 }

/-- Change set of the C5 witness pass. -/
def c5Changes : List Change :=
  [⟨"a.txt", .Added, some "a.txt", none⟩,
    ⟨"b.txt", .Added, some "b.txt", none⟩,
    ⟨"gone.txt", .Removed, none, none⟩]

/-- Witness for C5: the spec's three-change example — two successes applied
and saved, one (path, error) pair reported. -/
theorem c5_partial_failure_witness :
    loadOrCreate (LocalIndex.load c5Env.storedIndex) c5Env.branchCommit
        c5Env.repository c5Env.reference c5Env.now = .ok c5StoredIndex ∧
    c5Env.listRes = .ok [] ∧
    detect_changes c5Env.tree c5StoredIndex [] = .ok c5Changes ∧
    c5Env.branchCommit2 = .ok "c1" ∧
    (c5Changes.map Change.path).Nodup ∧
    (∃ (summary : SyncResult) (finalIndex : LocalIndex),
      (sync c5Env).1 = .ok summary ∧
      (sync c5Env).2 = finalIndex.save c5Env.root ∧
      summary.errors = c5Changes.filterMap (fun c =>
        match c5Env.transfer c with
        | .error e => some (c.path, e)
        | .ok _ => none) ∧
      summary.uploaded + summary.downloaded + summary.removed =
        (c5Changes.filter (fun c => transferOk (c5Env.transfer c))).length ∧
      ∀ c ∈ c5Changes, ∀ entry, c5Env.transfer c = .ok entry →
        ((c.change_type = .Added ∨ c.change_type = .Modified) →
          alLookup c.path finalIndex.entries = some entry) ∧
        (c.change_type = .Removed → alLookup c.path finalIndex.entries = none)) :=
  ⟨by decide, rfl, by decide, rfl, by decide,
    c5_partial_failure_contract c5Env c5StoredIndex [] c5Changes "c1"
      (by decide) rfl (by decide) rfl (by decide)⟩

end LakeFSLocal
